import Mathlib

/-!
Verification development for the immersed finite-element solver in
`source/immersed_fem.cc` (class `ImmersedFEM`, explicitly instantiated at
`dim = 2`, so the space dimension is 2 and the fluid field has `dim + 1 = 3`
components: two velocity components `0, 1` and the pressure component `2`).

Machine doubles are modelled as exact rationals.  External collaborators
(mesh import and geometry queries, quadrature rule tables, shape-function
evaluation, point location, the direct linear solver, the stored inverse of
the solid mass matrix) are modelled as context data: for each of them the
embedding records exactly the values the C++ code reads through the
collaborator's interface, and nothing else.
-/

namespace ImmersedFEM

open Matrix

/-- The material-model selector, `IFEMParameters<dim>::MaterialModel`
(cases used in `get_Pe_F_and_DPeFT_dxi_values`, immersed_fem.cc:1696-1779). -/
inductive MaterialModel where
  | INH_0 : MaterialModel
  | INH_1 : MaterialModel
  | CircumferentialFiberModel : MaterialModel
deriving DecidableEq

/-- Rank-2 tensors in dimension 2 (`Tensor<2,dim,double>` at `dim = 2`). -/
abbrev Mat2 := Matrix (Fin 2) (Fin 2) ℚ

/-- Determinant of a 2x2 tensor, as dealii computes it for `invert`. -/
def det2 (F : Mat2) : ℚ := F 0 0 * F 1 1 - F 0 1 * F 1 0

/-- dealii closed-form `invert` of a 2x2 rank-2 tensor: the adjugate divided
by the determinant, entry by entry. -/
def invert2 (F : Mat2) : Mat2 :=
  Matrix.of ![![F 1 1 / det2 F, -(F 0 1) / det2 F],
              ![-(F 1 0) / det2 F, F 0 0 / det2 F]]

/-- One entry of the interaction lists produced by
`up_field.compute_point_locations` on the mapped solid quadrature points
(immersed_fem.cc:972-975), together with the values the code subsequently
reads from the local fluid `FEValues` rebuilt on the located points
(immersed_fem.cc:990-996): a fluid cell, the number of located points on it,
the map back to solid quadrature indices (`fluid_maps`), and the fluid shape
values, gradients and Hessians at those points. -/
structure Interaction (nCellsF dpcF nQs : ℕ) where
  fCell : Fin nCellsF
  nq : ℕ
  qmap : Fin nq → Fin nQs
  shapeValue : Fin dpcF → Fin nq → ℚ
  shapeGrad : Fin dpcF → Fin nq → Fin 2 → ℚ
  shapeHess : Fin dpcF → Fin nq → Fin 2 → Fin 2 → ℚ

/-- The fixed data of one `ImmersedFEM<2>` run: configuration parameters
(`IFEMParameters`), the discretization data built once in
`create_triangulation_and_dofs` / `get_area_and_first_pressure_dof`, and the
interfaces of the external collaborators.

Naming: `nCellsF/nCellsS` active fluid/solid cells; `dpcF/dpcS` dofs per
cell (`fe_f.dofs_per_cell` / `fe_s.dofs_per_cell`); `nQf/nQs` quadrature
points per cell (`quad_f.size()` / `quad_s.size()`); `nUp = n_dofs_up`,
`nW = n_dofs_W` the global block sizes. -/
structure Ctx where
  nCellsF : ℕ
  dpcF : ℕ
  nQf : ℕ
  nUp : ℕ
  nCellsS : ℕ
  dpcS : ℕ
  nQs : ℕ
  nW : ℕ
  /-- `par.rho` (fluid density). -/
  rho : ℚ
  /-- `par.eta` (dynamic viscosity). -/
  eta : ℚ
  /-- `par.mu` (elastic shear modulus). -/
  mu : ℚ
  /-- `par.Phi_B` (reference-density-like coefficient of the solid). -/
  Phi_B : ℚ
  /-- `par.dt` (time-step size). -/
  dt : ℚ
  all_DBC : Bool
  fix_pressure : Bool
  semi_implicit : Bool
  use_spread : Bool
  /-- Set in the constructor from `par.fe_p_name` (immersed_fem.cc:48-50). -/
  dgp_for_p : Bool
  material_model : MaterialModel
  /-- `par.ring_center` (used only by the circumferential-fiber law). -/
  ring_center : Fin 2 → ℚ
  /-- `cell->get_dof_indices(dofs_f)` for each fluid cell. -/
  dofMapF : Fin nCellsF → Fin dpcF → Fin nUp
  /-- `fe_f.system_to_component_index(i).first`: component of each local
  fluid dof (0,1 velocity, 2 pressure). -/
  compF : Fin dpcF → Fin 3
  /-- `fe_f.system_to_component_index(i).second`. -/
  secondF : Fin dpcF → ℕ
  /-- `fe_f_v.shape_value(i,q)` on each fluid cell. -/
  shapeValueF : Fin nCellsF → Fin dpcF → Fin nQf → ℚ
  /-- `fe_f_v.shape_grad(i,q)` on each fluid cell. -/
  shapeGradF : Fin nCellsF → Fin dpcF → Fin nQf → Fin 2 → ℚ
  /-- `fe_f_v.JxW(q)` on each fluid cell. -/
  JxWf : Fin nCellsF → Fin nQf → ℚ
  /-- `cell_s->get_dof_indices(dofs_s)` for each solid cell. -/
  dofMapS : Fin nCellsS → Fin dpcS → Fin nW
  /-- `fe_s.system_to_component_index(i).first` (displacement component). -/
  compS : Fin dpcS → Fin 2
  /-- `fe_v_s.shape_value(i,qs)` (reference solid `FEValues`). -/
  shapeValueS : Fin nCellsS → Fin dpcS → Fin nQs → ℚ
  /-- `fe_v_s.shape_grad(i,qs)` (reference solid `FEValues`). -/
  shapeGradS : Fin nCellsS → Fin dpcS → Fin nQs → Fin 2 → ℚ
  /-- `fe_v_s.JxW(qs)` on each solid cell. -/
  JxWs : Fin nCellsS → Fin nQs → ℚ
  /-- `fe_v_s.quadrature_point(qs)` (reference quadrature point). -/
  qpointS : Fin nCellsS → Fin nQs → Fin 2 → ℚ
  /-- `p.norm()` for `p = fe_v_s.quadrature_point(qs) - par.ring_center`,
  the external dealii `Point::norm` evaluation used by the fiber law. -/
  pnormS : Fin nCellsS → Fin nQs → ℚ
  /-- `GridTools::minimal_cell_diameter(tria_f)`: the external geometry
  query re-evaluated at immersed_fem.cc:518 at the start of every call of
  `residual_and_or_Jacobian`; the fluid mesh never changes, so it is a
  single value. -/
  scaling : ℚ
  /-- `area`, the measure of the control volume, computed once at startup
  by `get_area_and_first_pressure_dof`. -/
  area : ℚ
  /-- `constraining_dof`, the first pressure dof
  (`get_area_and_first_pressure_dof`, immersed_fem.cc:473). -/
  constraining_dof : Fin nUp
  /-- The boundary-value map filled by the external
  `VectorTools::interpolate_boundary_values` at a given time
  (immersed_fem.cc:76-82); its key set is determined by the fixed mesh,
  boundary ids and component mask, its values by the time. -/
  interpBV : ℚ → Fin nUp → Option ℚ
  /-- `par.force.vector_value_list` at the fluid quadrature points for a
  given time (immersed_fem.cc:660). -/
  forceF : ℚ → Fin nCellsF → Fin nQf → Fin 3 → ℚ
  /-- The result of `up_field.compute_point_locations` on the quadrature
  points of a solid cell mapped through the `MappingQEulerian` built from a
  given solid displacement field, plus the fluid shape data at the located
  points: the external point-location collaborator. -/
  locate : (Fin nW → ℚ) → Fin nCellsS → List (Interaction nCellsF dpcF nQs)
  /-- The stored inverse of the solid mass matrix `M_gamma3`
  (`M_gamma3_inv`, immersed_fem.cc:379): `M_gamma3_inv.solve` applies this
  matrix. -/
  MgammaInv : Fin nW → Fin nW → ℚ

/-- The current boundary-value map `par.boundary_values` as
`compute_current_bc(t)` leaves it (immersed_fem.cc:71-88): the
interpolated essential boundary values at time `t`, with the entry of the
first pressure dof forced to zero when `par.fix_pressure` is set. -/
def compute_current_bc (ctx : Ctx) (t : ℚ) : Fin ctx.nUp → Option ℚ :=
  fun d =>
    if ctx.fix_pressure = true ∧ d = ctx.constraining_dof then some 0
    else ctx.interpBV t d

/-- `apply_current_bc(vec, t)` (immersed_fem.cc:92-106): recompute the
boundary map at time `t`, then overwrite each listed entry of block 0 of
the given block vector with its prescribed value.  Block 1 is not
touched. -/
def apply_current_bc (ctx : Ctx) (t : ℚ) (vf : Fin ctx.nUp → ℚ)
    (vs : Fin ctx.nW → ℚ) : (Fin ctx.nUp → ℚ) × (Fin ctx.nW → ℚ) :=
  (fun d =>
    match compute_current_bc ctx t d with
    | some g => g
    | none => vf d, vs)

/-- `fe_f_v.get_function_values` restricted to one component: the value at
quadrature point `q` of the field whose local coefficients are `x`
(component `comp` of `local_up` / `local_upt`, immersed_fem.cc:644-650). -/
def local_up_value (ctx : Ctx) (c : Fin ctx.nCellsF) (x : Fin ctx.dpcF → ℚ)
    (q : Fin ctx.nQf) (comp : Fin 3) : ℚ :=
  ∑ k, if ctx.compF k = comp then x k * ctx.shapeValueF c k q else 0

/-- `fe_f_v.get_function_gradients` restricted to one component and one
space direction (`local_grad_up`, immersed_fem.cc:655). -/
def local_grad_up (ctx : Ctx) (c : Fin ctx.nCellsF) (x : Fin ctx.dpcF → ℚ)
    (q : Fin ctx.nQf) (comp : Fin 3) (d : Fin 2) : ℚ :=
  ∑ k, if ctx.compF k = comp then x k * ctx.shapeGradF c k q d else 0

/-- The local residual contribution of one fluid cell before constraint
application (`local_res`, immersed_fem.cc:672-795): for a velocity-type
test function the inertia term `rho ((du/dt) - b) . v`, the pressure term
`-p (div v)`, the viscous term `eta (grad u + (grad u)^T) : grad v` and the
convective term `rho ((grad u) u) . v`; for a pressure-type test function
the incompressibility term `-q (div u)`.  `xt` and `x` are the local
restrictions of `xit.block(0)` and `xi.block(0)`. -/
def local_residual_f (ctx : Ctx) (c : Fin ctx.nCellsF) (t : ℚ)
    (xt x : Fin ctx.dpcF → ℚ) (i : Fin ctx.dpcF) : ℚ :=
  if h : (ctx.compF i : ℕ) < 2 then
    ∑ q, (ctx.rho * (local_up_value ctx c xt q (ctx.compF i) - ctx.forceF t c q (ctx.compF i))
            * ctx.shapeValueF c i q * ctx.JxWf c q
          - local_up_value ctx c x q 2
            * ctx.shapeGradF c i q (⟨(ctx.compF i : ℕ), h⟩ : Fin 2) * ctx.JxWf c q
          + ∑ d, (ctx.eta * (local_grad_up ctx c x q (ctx.compF i) d
                    + local_grad_up ctx c x q d.castSucc (⟨(ctx.compF i : ℕ), h⟩ : Fin 2))
                    * ctx.shapeGradF c i q d * ctx.JxWf c q
                  + ctx.rho * local_grad_up ctx c x q (ctx.compF i) d
                    * local_up_value ctx c x q d.castSucc
                    * ctx.shapeValueF c i q * ctx.JxWf c q))
  else
    ∑ q, ∑ d : Fin 2,
      -(local_grad_up ctx c x q d.castSucc d * ctx.shapeValueF c i q * ctx.JxWf c q)

/-- The local Jacobian contribution of one fluid cell before constraint
application (`local_jacobian`, immersed_fem.cc:692-774): the derivative
terms the code adds at entry `(i,j)`, with the inertia part carrying the
factor `alpha`. -/
def local_jacobian_f (ctx : Ctx) (c : Fin ctx.nCellsF) (alpha : ℚ)
    (x : Fin ctx.dpcF → ℚ) (i j : Fin ctx.dpcF) : ℚ :=
  if h : (ctx.compF i : ℕ) < 2 then
    ∑ q,
      ((if ctx.compF j = ctx.compF i then
          ctx.rho * alpha * ctx.shapeValueF c i q * ctx.shapeValueF c j q * ctx.JxWf c q
        else 0)
       + (if ctx.compF j = 2 then
          -(ctx.shapeGradF c i q (⟨(ctx.compF i : ℕ), h⟩ : Fin 2)
             * ctx.shapeValueF c j q * ctx.JxWf c q)
        else 0)
       + (if ctx.compF j = ctx.compF i then
          ∑ d, (ctx.eta * ctx.shapeGradF c i q d * ctx.shapeGradF c j q d * ctx.JxWf c q
                + ctx.rho * ctx.shapeValueF c i q * local_up_value ctx c x q d.castSucc
                  * ctx.shapeGradF c j q d * ctx.JxWf c q)
        else 0)
       + (if h2 : (ctx.compF j : ℕ) < 2 then
          ctx.eta * ctx.shapeGradF c i q (⟨(ctx.compF j : ℕ), h2⟩ : Fin 2)
            * ctx.shapeGradF c j q (⟨(ctx.compF i : ℕ), h⟩ : Fin 2) * ctx.JxWf c q
          + ctx.rho * local_grad_up ctx c x q (ctx.compF i) (⟨(ctx.compF j : ℕ), h2⟩ : Fin 2)
            * ctx.shapeValueF c i q * ctx.shapeValueF c j q * ctx.JxWf c q
        else 0))
  else
    ∑ q, if h2 : (ctx.compF j : ℕ) < 2 then
      -(ctx.shapeValueF c i q * ctx.shapeGradF c j q (⟨(ctx.compF j : ℕ), h2⟩ : Fin 2)
         * ctx.JxWf c q)
    else 0

/-- `local_average_pressure` of one fluid cell (immersed_fem.cc:776-793):
accumulated only when all boundary conditions are essential and the
pressure is not explicitly fixed, over pressure-type local dofs (only the
first one per cell when a DGP pressure space is used). -/
def local_average_pressure (ctx : Ctx) (c : Fin ctx.nCellsF)
    (xf : Fin ctx.nUp → ℚ) : ℚ :=
  if ctx.all_DBC = true ∧ ctx.fix_pressure = false then
    ∑ i, ∑ q,
      if ctx.compF i = 2 ∧ (ctx.dgp_for_p = false ∨ ctx.secondF i = 0) then
        xf (ctx.dofMapF c i) * ctx.shapeValueF c i q * ctx.JxWf c q
      else 0
  else 0

/-- `local_pressure_coefficient` of one fluid cell (immersed_fem.cc:787-791):
the linear coefficient of the cell's average-pressure contribution with
respect to each local dof. -/
def local_pressure_coefficient (ctx : Ctx) (c : Fin ctx.nCellsF)
    (i : Fin ctx.dpcF) : ℚ :=
  if ctx.all_DBC = true ∧ ctx.fix_pressure = false then
    if ctx.compF i = 2 ∧ (ctx.dgp_for_p = false ∨ ctx.secondF i = 0) then
      ∑ q, ctx.shapeValueF c i q * ctx.JxWf c q
    else 0
  else 0

/-- The residual part of `apply_constraints` (immersed_fem.cc:1822-1864):
for each local index below `m` whose global dof has a prescribed boundary
value, overwrite the entry with `scaling * (current - prescribed)`; then,
when all boundary conditions are essential and pressure is not fixed, zero
the entry of the constraining pressure dof. -/
def apply_constraints_res (ctx : Ctx) (t : ℚ) (xiF : Fin ctx.nUp → ℚ)
    {m N : ℕ} (dofs : Fin m → Fin ctx.nUp) (res : Fin N → ℚ) :
    Fin N → ℚ := fun i =>
  if h : (i : ℕ) < m then
    let d := dofs ⟨(i : ℕ), h⟩
    let r1 := match compute_current_bc ctx t d with
      | some g => ctx.scaling * (xiF d - g)
      | none => res i
    if ctx.all_DBC = true ∧ ctx.fix_pressure = false ∧ d = ctx.constraining_dof then 0
    else r1
  else res i

/-- The Jacobian part of `apply_constraints` (immersed_fem.cc:1842-1861):
for a prescribed-boundary-value row, zero the row and put `scaling` on the
diagonal; for the constraining pressure dof (under the all-essential,
no-explicit-fix configuration) subtract the row from itself
(`local_jacobian.add_row(i, -1, i)`), i.e. zero it. -/
def apply_constraints_jac (ctx : Ctx) (t : ℚ) {m N : ℕ}
    (dofs : Fin m → Fin ctx.nUp) (jac : Fin N → Fin N → ℚ) :
    Fin N → Fin N → ℚ := fun i j =>
  if h : (i : ℕ) < m then
    let d := dofs ⟨(i : ℕ), h⟩
    let r1 := if (compute_current_bc ctx t d).isSome then
        (if j = i then ctx.scaling else 0)
      else jac i j
    if ctx.all_DBC = true ∧ ctx.fix_pressure = false ∧ d = ctx.constraining_dof then 0
    else r1
  else jac i j

/-- `distribute_constraint_on_pressure` on the residual
(immersed_fem.cc:1867-1876): add `average_pressure * scaling / area` to the
entry of the constraining dof. -/
def distribute_constraint_on_pressure_res (ctx : Ctx)
    (residual : Fin ctx.nUp → ℚ) (average_pressure : ℚ) : Fin ctx.nUp → ℚ :=
  fun d =>
    if d = ctx.constraining_dof then
      residual d + average_pressure * ctx.scaling / ctx.area
    else residual d

/-- `distribute_constraint_on_pressure` on the Jacobian
(immersed_fem.cc:1879-1896): add `pressure_coefficient[i] * scaling / area`
at `(constraining_dof, dofs[i])` for every local dof. -/
def distribute_constraint_on_pressure_jac (ctx : Ctx)
    (jacobian : Fin ctx.nUp → Fin ctx.nUp → ℚ) {m : ℕ}
    (pressure_coefficient : Fin m → ℚ) (dofs : Fin m → Fin ctx.nUp) :
    Fin ctx.nUp → Fin ctx.nUp → ℚ := fun d e =>
  if d = ctx.constraining_dof then
    jacobian d e + ∑ i, (if dofs i = e then pressure_coefficient i * ctx.scaling / ctx.area else 0)
  else jacobian d e

/-- `fe_v_s.get_function_gradients` of the solid displacement, component
`i`, direction `j` (`H` in `get_Pe_F_and_DPeFT_dxi_values`,
immersed_fem.cc:1669-1671). -/
def solid_grad (ctx : Ctx) (cs : Fin ctx.nCellsS) (xs : Fin ctx.nW → ℚ)
    (qs : Fin ctx.nQs) (i j : Fin 2) : ℚ :=
  ∑ k, if ctx.compS k = i then xs (ctx.dofMapS cs k) * ctx.shapeGradS cs k qs j else 0

/-- `fe_v_s.get_function_values` of a solid block vector, component `comp`
(`local_W` / `local_Wt`, immersed_fem.cc:958-959). -/
def solid_value (ctx : Ctx) (cs : Fin ctx.nCellsS) (xs : Fin ctx.nW → ℚ)
    (qs : Fin ctx.nQs) (comp : Fin 2) : ℚ :=
  ∑ k, if ctx.compS k = comp then xs (ctx.dofMapS cs k) * ctx.shapeValueS cs k qs else 0

/-- The deformation gradient `F = I + grad w` assembled row by row in
`get_Pe_F_and_DPeFT_dxi_values` (immersed_fem.cc:1687-1691). -/
def defGrad (ctx : Ctx) (cs : Fin ctx.nCellsS) (xs : Fin ctx.nW → ℚ)
    (qs : Fin ctx.nQs) : Mat2 :=
  Matrix.of fun i j => (if i = j then 1 else 0) + solid_grad ctx cs xs qs i j

/-- The unit tangential direction computed by the fiber law
(immersed_fem.cc:1745-1749): `p = quadrature_point - ring_center`,
`etheta = (-p[1], p[0]) / p.norm()`, with `p.norm()` taken from the
external collaborator (`pnormS`). -/
def etheta_val (ctx : Ctx) (cs : Fin ctx.nCellsS) (qs : Fin ctx.nQs) :
    Fin 2 → ℚ :=
  ![-(ctx.qpointS cs qs 1 - ctx.ring_center 1) / ctx.pnormS cs qs,
    (ctx.qpointS cs qs 0 - ctx.ring_center 0) / ctx.pnormS cs qs]

/-- The first Piola-Kirchhoff stress returned by
`get_Pe_F_and_DPeFT_dxi_values` (immersed_fem.cc:1696-1779):
`mu (F - (invert F)^T)` for `INH_0`, `mu F` for `INH_1`, and
`mu (F (etheta x etheta))` for the circumferential-fiber law
(`contract<1,0>` of `F` with the outer product is the matrix product). -/
def Pe_val (ctx : Ctx) (cs : Fin ctx.nCellsS) (xs : Fin ctx.nW → ℚ)
    (qs : Fin ctx.nQs) : Mat2 :=
  let F := defGrad ctx cs xs qs
  match ctx.material_model with
  | .INH_0 => ctx.mu • (F - (invert2 F)ᵀ)
  | .INH_1 => ctx.mu • F
  | .CircumferentialFiberModel =>
      ctx.mu • (F * Matrix.of fun i j => etheta_val ctx cs qs i * etheta_val ctx cs qs j)

/-- The Frechet derivative `DPeFT_dxi[qs][k]` of `Pe F^T` with respect to
local solid dof `k` (immersed_fem.cc:1700-1775).  For `INH_0` and `INH_1`
the code assembles the same product-rule expression
`mu ([i = comp_k] grad(k) . F[j] + [j = comp_k] grad(k) . F[i])`; for the
fiber law each `grad(k)` is first multiplied by `etheta x etheta`. -/
def DPeFT_dxi_val (ctx : Ctx) (cs : Fin ctx.nCellsS) (xs : Fin ctx.nW → ℚ)
    (qs : Fin ctx.nQs) (k : Fin ctx.dpcS) : Mat2 :=
  let F := defGrad ctx cs xs qs
  let g := fun d => ctx.shapeGradS cs k qs d
  match ctx.material_model with
  | .INH_0 | .INH_1 =>
    Matrix.of fun i j =>
      ctx.mu * ((if i = ctx.compS k then ∑ d, g d * F j d else 0)
                + (if j = ctx.compS k then ∑ d, g d * F i d else 0))
  | .CircumferentialFiberModel =>
    Matrix.of fun i j =>
      ctx.mu * ((if i = ctx.compS k then
                  ∑ n, (∑ m, g m * (etheta_val ctx cs qs m * etheta_val ctx cs qs n)) * F j n
                else 0)
                + (if j = ctx.compS k then
                  ∑ n, (∑ m, g m * (etheta_val ctx cs qs m * etheta_val ctx cs qs n)) * F i n
                else 0))

/-- `PeFT = contract<1,1>(Pe, F) = Pe F^T` (immersed_fem.cc:1037). -/
def PeFT_val (ctx : Ctx) (cs : Fin ctx.nCellsS) (xs : Fin ctx.nW → ℚ)
    (qs : Fin ctx.nQs) : Mat2 :=
  Pe_val ctx cs xs qs * (defGrad ctx cs xs qs)ᵀ

/-- `get_Agamma_values` on one solid cell (immersed_fem.cc:1606-1651):
`local_A_gamma(k) = sum_qs (P[qs][comp_k] . shape_grad(k,qs)) JxW(qs)`
with `P` the elastic stress of the current solid state. -/
def local_A_gamma (ctx : Ctx) (cs : Fin ctx.nCellsS) (xs : Fin ctx.nW → ℚ)
    (k : Fin ctx.dpcS) : ℚ :=
  ∑ qs, (∑ d, Pe_val ctx cs xs qs (ctx.compS k) d * ctx.shapeGradS cs k qs d)
          * ctx.JxWs cs qs

/-- The global elastic operator `A_gamma` (immersed_fem.cc:898-940): reset
to zero, then accumulated cell by cell through `A_gamma.add`. -/
def A_gamma_global (ctx : Ctx) (xs : Fin ctx.nW → ℚ) : Fin ctx.nW → ℚ :=
  fun d => ∑ cs, ∑ k, if ctx.dofMapS cs k = d then local_A_gamma ctx cs xs k else 0

/-- `M_gamma3_inv_A_gamma = M_gamma3_inv.solve(A_gamma)`
(immersed_fem.cc:942-943): application of the stored mass-matrix
inverse. -/
def M_inv_A_gamma (ctx : Ctx) (xs : Fin ctx.nW → ℚ) : Fin ctx.nW → ℚ :=
  fun d => ∑ e, ctx.MgammaInv d e * A_gamma_global ctx xs e

/-- `local_fe_f_v.get_function_values(xi.block(0), local_up)` at the
located interaction points (immersed_fem.cc:1001-1002). -/
def up_at_interaction (ctx : Ctx) (I : Interaction ctx.nCellsF ctx.dpcF ctx.nQs)
    (xf : Fin ctx.nUp → ℚ) (q : Fin I.nq) (comp : Fin 3) : ℚ :=
  ∑ k, if ctx.compF k = comp then xf (ctx.dofMapF I.fCell k) * I.shapeValue k q else 0

/-- The local contribution of one (solid cell, interacting fluid cell) pair
to the equation in V' (immersed_fem.cc:1023-1092), indexed by the local
fluid dof: the direct elastic-traction form `(Pe F^T)[comp_i] . grad v`
when the spread operator is off, and the spread form
`Phi_B v_i y_j (M^-1 A_gamma)_j` when it is on.  Only velocity-type rows
receive contributions. -/
def local_residual_V (ctx : Ctx) (cs : Fin ctx.nCellsS)
    (I : Interaction ctx.nCellsF ctx.dpcF ctx.nQs)
    (xs : Fin ctx.nW → ℚ) (i : Fin ctx.dpcF) : ℚ :=
  if h : (ctx.compF i : ℕ) < 2 then
    ∑ q : Fin I.nq,
      if ctx.use_spread = true then
        ∑ j : Fin ctx.dpcS,
          if ctx.compF i = (ctx.compS j).castSucc then
            ctx.Phi_B * I.shapeValue i q * ctx.shapeValueS cs j (I.qmap q)
              * M_inv_A_gamma ctx xs (ctx.dofMapS cs j) * ctx.JxWs cs (I.qmap q)
          else 0
      else
        (∑ d, PeFT_val ctx cs xs (I.qmap q) (⟨(ctx.compF i : ℕ), h⟩ : Fin 2) d
                * I.shapeGrad i q d) * ctx.JxWs cs (I.qmap q)
  else 0

/-- The local Jacobian of the V' coupling contribution
(immersed_fem.cc:1043-1089), on the combined local index range
`dpcF + dpcS`: rows are local fluid dofs, columns `dpcF + j` are local
solid dofs; identical expressions are assembled in the spread and
non-spread branches: the `DPeFT` term always, and, in the fully implicit
scheme, the `PeFT . Hessian` term coming from the motion of the
quadrature points. -/
def local_jacobian_V (ctx : Ctx) (cs : Fin ctx.nCellsS)
    (I : Interaction ctx.nCellsF ctx.dpcF ctx.nQs) (xs : Fin ctx.nW → ℚ)
    (a b : Fin (ctx.dpcF + ctx.dpcS)) : ℚ :=
  if ha : (a : ℕ) < ctx.dpcF then
    if h : (ctx.compF ⟨(a : ℕ), ha⟩ : ℕ) < 2 then
      if hb : (b : ℕ) < ctx.dpcF then 0
      else
        let i : Fin ctx.dpcF := ⟨(a : ℕ), ha⟩
        let j : Fin ctx.dpcS := ⟨(b : ℕ) - ctx.dpcF, by omega⟩
        ∑ q : Fin I.nq,
          ((∑ d, DPeFT_dxi_val ctx cs xs (I.qmap q) j (⟨(ctx.compF i : ℕ), h⟩ : Fin 2) d
                  * I.shapeGrad i q d) * ctx.JxWs cs (I.qmap q)
           + if ctx.semi_implicit = false then
              (∑ d, PeFT_val ctx cs xs (I.qmap q) (⟨(ctx.compF i : ℕ), h⟩ : Fin 2) d
                      * I.shapeHess i q (ctx.compS j) d)
                * ctx.shapeValueS cs j (I.qmap q) * ctx.JxWs cs (I.qmap q)
             else 0)
    else 0
  else 0

/-- The local contribution of one (solid cell, interacting fluid cell) pair
to the equation in Y' (immersed_fem.cc:1124-1162), indexed by the local
solid dof: `- Phi_B u(x)|_{x = s + w} . y`. -/
def local_residual_Y (ctx : Ctx) (cs : Fin ctx.nCellsS)
    (I : Interaction ctx.nCellsF ctx.dpcF ctx.nQs) (xf : Fin ctx.nUp → ℚ)
    (i : Fin ctx.dpcS) : ℚ :=
  -∑ q : Fin I.nq,
    ctx.Phi_B * up_at_interaction ctx I xf q (ctx.compS i).castSucc
      * ctx.shapeValueS cs i (I.qmap q) * ctx.JxWs cs (I.qmap q)

/-- The local Jacobian of the Y' coupling contribution
(immersed_fem.cc:1137-1160), on the combined index range: rows `dpcF + i`
are solid dofs; fluid columns receive
`- Phi_B y_i v_j` (matching components), and, in the fully implicit
scheme, solid columns receive the quadrature-point-motion term
`- Phi_B y_i y_k grad(v_j)[comp_k] xi(dof_j)` summed over matching fluid
dofs `j`. -/
def local_jacobian_Y (ctx : Ctx) (cs : Fin ctx.nCellsS)
    (I : Interaction ctx.nCellsF ctx.dpcF ctx.nQs) (xf : Fin ctx.nUp → ℚ)
    (a b : Fin (ctx.dpcF + ctx.dpcS)) : ℚ :=
  if ha : (a : ℕ) < ctx.dpcF then 0
  else
    let i : Fin ctx.dpcS := ⟨(a : ℕ) - ctx.dpcF, by omega⟩
    if hb : (b : ℕ) < ctx.dpcF then
      let j : Fin ctx.dpcF := ⟨(b : ℕ), hb⟩
      if ctx.compF j = (ctx.compS i).castSucc then
        -∑ q : Fin I.nq,
          ctx.Phi_B * ctx.shapeValueS cs i (I.qmap q) * I.shapeValue j q
            * ctx.JxWs cs (I.qmap q)
      else 0
    else
      let k : Fin ctx.dpcS := ⟨(b : ℕ) - ctx.dpcF, by omega⟩
      if ctx.semi_implicit = false then
        -∑ q : Fin I.nq, ∑ j : Fin ctx.dpcF,
          if ctx.compF j = (ctx.compS i).castSucc then
            ctx.Phi_B * ctx.shapeValueS cs i (I.qmap q) * ctx.shapeValueS cs k (I.qmap q)
              * I.shapeGrad j q (ctx.compS k) * xf (ctx.dofMapF I.fCell j)
              * ctx.JxWs cs (I.qmap q)
          else 0
      else 0

/-- The per-solid-cell inertial residual `Phi_B (dw/dt) . y`
(immersed_fem.cc:1205-1231), assembled outside the interaction loop. -/
def local_inertial_res (ctx : Ctx) (cs : Fin ctx.nCellsS)
    (xts : Fin ctx.nW → ℚ) (i : Fin ctx.dpcS) : ℚ :=
  ∑ qs, ctx.Phi_B * solid_value ctx cs xts qs (ctx.compS i)
          * ctx.shapeValueS cs i qs * ctx.JxWs cs qs

/-- The per-solid-cell inertial Jacobian `Phi_B alpha y_i y_j`
(immersed_fem.cc:1217-1228). -/
def local_inertial_jac (ctx : Ctx) (cs : Fin ctx.nCellsS) (alpha : ℚ)
    (i j : Fin ctx.dpcS) : ℚ :=
  if ctx.compS j = ctx.compS i then
    ∑ qs, ctx.Phi_B * alpha * ctx.shapeValueS cs i qs * ctx.shapeValueS cs j qs
            * ctx.JxWs cs qs
  else 0

/-- Block 0 of the assembled global residual (immersed_fem.cc:631-826 and
949-1196): the fluid-cell contributions after `apply_constraints`,
distributed by `distribute_residual`; the per-cell
`distribute_constraint_on_pressure` increments of the constraining dof
(active only when all boundary conditions are essential and pressure is not
fixed); and the V'-coupling contributions of every interacting
(solid cell, fluid cell) pair, also after `apply_constraints`.  `w` is the
displacement field the current `MappingQEulerian` was built from. -/
def global_residual_f (ctx : Ctx) (t : ℚ) (w : Fin ctx.nW → ℚ)
    (xtf xf : Fin ctx.nUp → ℚ) (xs : Fin ctx.nW → ℚ) : Fin ctx.nUp → ℚ :=
  fun d =>
    (∑ c, ∑ i, if ctx.dofMapF c i = d then
        apply_constraints_res ctx t xf (ctx.dofMapF c)
          (local_residual_f ctx c t (fun k => xtf (ctx.dofMapF c k))
            (fun k => xf (ctx.dofMapF c k))) i
      else 0)
    + (if ctx.all_DBC = true ∧ ctx.fix_pressure = false then
        (if d = ctx.constraining_dof then
          ∑ c, local_average_pressure ctx c xf * ctx.scaling / ctx.area
        else 0)
      else 0)
    + ∑ cs, ((ctx.locate w cs).map (fun I =>
        ∑ i, if ctx.dofMapF I.fCell i = d then
          apply_constraints_res ctx t xf (ctx.dofMapF I.fCell)
            (local_residual_V ctx cs I xs) i
        else 0)).sum

/-- Block 1 of the assembled global residual (immersed_fem.cc:1118-1246):
the Y'-coupling contributions of every interacting pair (the
`apply_constraints` call in that loop touches only the fluid-indexed
entries `0..dpcF-1` of the combined local vector, which
`distribute_residual` then skips, distributing from offset `dpcF` with the
solid dof map), plus the per-solid-cell inertial term. -/
def global_residual_s (ctx : Ctx) (w : Fin ctx.nW → ℚ)
    (xts : Fin ctx.nW → ℚ) (xf : Fin ctx.nUp → ℚ) : Fin ctx.nW → ℚ :=
  fun e =>
    (∑ cs, ((ctx.locate w cs).map (fun I =>
        ∑ i, if ctx.dofMapS cs i = e then local_residual_Y ctx cs I xf i else 0)).sum)
    + ∑ cs, ∑ i, if ctx.dofMapS cs i = e then local_inertial_res ctx cs xts i else 0

/-- Block (0,0) of the assembled global Jacobian (immersed_fem.cc:807-813
and 820-825): the constrained fluid-cell local Jacobians distributed by
`distribute_jacobian`, plus the `distribute_constraint_on_pressure` row of
the constraining dof. -/
def global_jac00 (ctx : Ctx) (t alpha : ℚ) (xf : Fin ctx.nUp → ℚ) :
    Fin ctx.nUp → Fin ctx.nUp → ℚ := fun d e =>
  (∑ c, ∑ i, ∑ j, if ctx.dofMapF c i = d ∧ ctx.dofMapF c j = e then
      apply_constraints_jac ctx t (ctx.dofMapF c)
        (local_jacobian_f ctx c alpha (fun k => xf (ctx.dofMapF c k))) i j
    else 0)
  + (if ctx.all_DBC = true ∧ ctx.fix_pressure = false then
      (if d = ctx.constraining_dof then
        ∑ c, ∑ i, if ctx.dofMapF c i = e then
          local_pressure_coefficient ctx c i * ctx.scaling / ctx.area
        else 0
      else 0)
    else 0)

/-- Block (0,1) of the assembled global Jacobian (immersed_fem.cc:1104-1109):
the constrained V'-coupling local Jacobians, rows indexed by the fluid dof
map, columns by the solid dof map with offset `dpcF`. -/
def global_jac01 (ctx : Ctx) (t : ℚ) (w : Fin ctx.nW → ℚ)
    (xs : Fin ctx.nW → ℚ) :
    Fin ctx.nUp → Fin ctx.nW → ℚ := fun d e =>
  ∑ cs, ((ctx.locate w cs).map (fun I =>
    ∑ i : Fin ctx.dpcF, ∑ j : Fin ctx.dpcS,
      if ctx.dofMapF I.fCell i = d ∧ ctx.dofMapS cs j = e then
        apply_constraints_jac ctx t (ctx.dofMapF I.fCell)
          (local_jacobian_V ctx cs I xs)
          (Fin.castAdd ctx.dpcS i) (Fin.natAdd ctx.dpcF j)
      else 0)).sum

/-- Block (1,0) of the assembled global Jacobian (immersed_fem.cc:1176-1181):
the constrained Y'-coupling local Jacobians, rows from offset `dpcF` with
the solid dof map, columns with the fluid dof map. -/
def global_jac10 (ctx : Ctx) (t : ℚ) (w : Fin ctx.nW → ℚ)
    (xf : Fin ctx.nUp → ℚ) : Fin ctx.nW → Fin ctx.nUp → ℚ := fun d e =>
  ∑ cs, ((ctx.locate w cs).map (fun I =>
    ∑ i : Fin ctx.dpcS, ∑ j : Fin ctx.dpcF,
      if ctx.dofMapS cs i = d ∧ ctx.dofMapF I.fCell j = e then
        apply_constraints_jac ctx t (ctx.dofMapF I.fCell)
          (local_jacobian_Y ctx cs I xf)
          (Fin.natAdd ctx.dpcF i) (Fin.castAdd ctx.dpcS j)
      else 0)).sum

/-- Block (1,1) of the assembled global Jacobian: the Y'-coupling
solid-solid contributions, distributed only in the fully implicit scheme
(immersed_fem.cc:1182-1187), plus the inertial block
(immersed_fem.cc:1239-1244). -/
def global_jac11 (ctx : Ctx) (t alpha : ℚ) (w : Fin ctx.nW → ℚ)
    (xf : Fin ctx.nUp → ℚ) : Fin ctx.nW → Fin ctx.nW → ℚ := fun d e =>
  (if ctx.semi_implicit = false then
    ∑ cs, ((ctx.locate w cs).map (fun I =>
      ∑ i : Fin ctx.dpcS, ∑ j : Fin ctx.dpcS,
        if ctx.dofMapS cs i = d ∧ ctx.dofMapS cs j = e then
          apply_constraints_jac ctx t (ctx.dofMapF I.fCell)
            (local_jacobian_Y ctx cs I xf)
            (Fin.natAdd ctx.dpcF i) (Fin.natAdd ctx.dpcF j)
        else 0)).sum
  else 0)
  + ∑ cs, ∑ i, ∑ j, if ctx.dofMapS cs i = d ∧ ctx.dofMapS cs j = e then
      local_inertial_jac ctx cs alpha i j
    else 0

/-- The mutable evaluation state of the `ImmersedFEM` object as far as
`residual_and_or_Jacobian` reads or writes it: the deformed-configuration
mapping (`mapping`, stored as the displacement field the
`MappingQEulerian` was built from; `none` models a deleted mapping), the
residual block vector, the four Jacobian blocks, and the elastic operator
`A_gamma`. -/
structure EvalState (ctx : Ctx) where
  mapping : Option (Fin ctx.nW → ℚ)
  res_f : Fin ctx.nUp → ℚ
  res_s : Fin ctx.nW → ℚ
  jac00 : Fin ctx.nUp → Fin ctx.nUp → ℚ
  jac01 : Fin ctx.nUp → Fin ctx.nW → ℚ
  jac10 : Fin ctx.nW → Fin ctx.nUp → ℚ
  jac11 : Fin ctx.nW → Fin ctx.nW → ℚ
  A_gamma : Fin ctx.nW → ℚ

/-- `residual_and_or_Jacobian` (immersed_fem.cc:481-1253) as a transformer
of the evaluation state.  The old mapping is deleted and a fresh
`MappingQEulerian` is built from `previous_xi.block(1)` in the
semi-implicit scheme and from `xi.block(1)` otherwise
(immersed_fem.cc:498-513); the residual is reset and fully recomputed on
every call (immersed_fem.cc:521); `A_gamma` is reset and recomputed on
every call (immersed_fem.cc:900); the Jacobian is cleared, given a fresh
sparsity and recomputed exactly when a Jacobian was requested
(immersed_fem.cc:524-529), and is left untouched otherwise (the caller
passes `dummy_JF`). -/
def residual_and_or_Jacobian (ctx : Ctx) (st : EvalState ctx)
    (update_jacobian : Bool) (prevS : Fin ctx.nW → ℚ)
    (xtf : Fin ctx.nUp → ℚ) (xts : Fin ctx.nW → ℚ)
    (xf : Fin ctx.nUp → ℚ) (xs : Fin ctx.nW → ℚ) (alpha t : ℚ) :
    EvalState ctx :=
  let w := if ctx.semi_implicit = true then prevS else xs
  { mapping := some w
    res_f := global_residual_f ctx t w xtf xf xs
    res_s := global_residual_s ctx w xts xf
    jac00 := if update_jacobian then global_jac00 ctx t alpha xf else st.jac00
    jac01 := if update_jacobian then global_jac01 ctx t w xs else st.jac01
    jac10 := if update_jacobian then global_jac10 ctx t w xf else st.jac10
    jac11 := if update_jacobian then global_jac11 ctx t alpha w xf else st.jac11
    A_gamma := A_gamma_global ctx xs }

/-- The mass-matrix coefficient the Newton driver passes to
`residual_and_or_Jacobian` when it requests a Jacobian: `1./par.dt`
(immersed_fem.cc:1319-1324, implicit Euler). -/
def run_alpha (ctx : Ctx) : ℚ := 1 / ctx.dt

/-- The per-iteration state of the nonlinear solver loop in `run()`
(immersed_fem.cc:1286-1436). -/
structure NewtonState (n : ℕ) where
  xi : Fin n → ℚ
  nonlin_iter : ℕ
  outer_nonlin_iter : ℕ
  update_Jacobian : Bool

/-- The outcome of one pass through the `while (true)` body in `run()`:
the step converged (`break` at immersed_fem.cc:1363), the loop continues
with an updated state, or the run aborts through the `AssertThrow` at
immersed_fem.cc:1434-1435. -/
inductive NewtonOutcome (n : ℕ) where
  | converged : NewtonState n → NewtonOutcome n
  | next : NewtonState n → NewtonOutcome n
  | aborted : String → NewtonOutcome n

/-- One pass through the Newton loop body (immersed_fem.cc:1294-1436),
after the residual (and possibly the Jacobian) have been evaluated:
`cont` is `par.update_jacobian_continuously`, `res_norm` the value of
`current_res.l2_norm()` for this iteration, and `newton_update` the result
of the external direct solve on the negated residual.  If the Jacobian was
recomputed, the update policy falls back to `cont`; the step is accepted
iff `res_norm < 1e-10`; otherwise the update is added to `xi`, a norm
above `1e-2` forces a Jacobian refresh, the inner counter is advanced and
folded into the outer counter every 15 iterations, and an outer counter
above 3 aborts. -/
def newton_iterate (n : ℕ) (cont : Bool) (res_norm : ℚ)
    (newton_update : Fin n → ℚ) (s : NewtonState n) : NewtonOutcome n :=
  let uj0 := if s.update_Jacobian then cont else s.update_Jacobian
  if res_norm < 1 / 10 ^ 10 then
    NewtonOutcome.converged
      { xi := s.xi, nonlin_iter := s.nonlin_iter,
        outer_nonlin_iter := s.outer_nonlin_iter, update_Jacobian := uj0 }
  else
    let xi1 := fun i => s.xi i + newton_update i
    let uj1 := if res_norm > 1 / 100 then true else uj0
    let s2 : NewtonState n :=
      if s.nonlin_iter + 1 = 15 then
        { xi := xi1, nonlin_iter := 0,
          outer_nonlin_iter := s.outer_nonlin_iter + 1, update_Jacobian := true }
      else
        { xi := xi1, nonlin_iter := s.nonlin_iter + 1,
          outer_nonlin_iter := s.outer_nonlin_iter, update_Jacobian := uj1 }
    if s2.outer_nonlin_iter ≤ 3 then NewtonOutcome.next s2
    else NewtonOutcome.aborted "No convergence in nonlinear solver."

/-- Matrix-vector product of the factored Jacobian, used to state the
contract of the external direct solver (`JF_inv.solve`,
immersed_fem.cc:1388-1389). -/
def matVec (n : ℕ) (J : Fin n → Fin n → ℚ) (v : Fin n → ℚ) : Fin n → ℚ :=
  fun i => ∑ j, J i j * v j

/-- The boundary-constraint rows of the fluid residual block: the dofs
carrying a prescribed boundary value at time `t` and, when all boundary
conditions are essential and the pressure is not explicitly fixed, the
pressure-pinning (constraining) dof. -/
def is_constraint_row (ctx : Ctx) (t : ℚ) (d : Fin ctx.nUp) : Prop :=
  (compute_current_bc ctx t d).isSome = true
  ∨ (ctx.all_DBC = true ∧ ctx.fix_pressure = false ∧ d = ctx.constraining_dof)

/-- A one-point interaction record used by the concrete contexts below:
one located quadrature point on fluid cell 0, with fluid shape value 0,
shape gradient `(1, 0)` and zero Hessian there. -/
def interBase : Interaction 1 1 1 where
  fCell := 0
  nq := 1
  qmap := fun _ => 0
  shapeValue := fun _ _ => 0
  shapeGrad := fun _ _ d => if d = 0 then 1 else 0
  shapeHess := fun _ _ _ _ => 0

/-- A minimal concrete context: one fluid cell and one solid cell with one
dof and one quadrature point each, unit material constants, no boundary
values, zero body force, all flags off, `INH_0` material law, solid
quadrature point at `(3,4)` with external norm 5 relative to the origin
ring center. -/
def ctxBase : Ctx where
  nCellsF := 1
  dpcF := 1
  nQf := 1
  nUp := 1
  nCellsS := 1
  dpcS := 1
  nQs := 1
  nW := 1
  rho := 1
  eta := 1
  mu := 1
  Phi_B := 1
  dt := 1
  all_DBC := false
  fix_pressure := false
  semi_implicit := false
  use_spread := false
  dgp_for_p := false
  material_model := MaterialModel.INH_0
  ring_center := fun _ => 0
  dofMapF := fun _ _ => 0
  compF := fun _ => 0
  secondF := fun _ => 0
  shapeValueF := fun _ _ _ => 0
  shapeGradF := fun _ _ _ _ => 0
  JxWf := fun _ _ => 1
  dofMapS := fun _ _ => 0
  compS := fun _ => 0
  shapeValueS := fun _ _ _ => 0
  shapeGradS := fun _ _ _ _ => 0
  JxWs := fun _ _ => 1
  qpointS := fun _ _ d => if d = 0 then 3 else 4
  pnormS := fun _ _ => 5
  scaling := 1
  area := 1
  constraining_dof := 0
  interpBV := fun _ _ => none
  forceF := fun _ _ _ _ => 0
  locate := fun _ _ => [interBase]
  MgammaInv := fun _ _ => 0

/-- `ctxBase` with the second neo-Hookean law (`INH_1`). -/
def ctxINH1 : Ctx := { ctxBase with material_model := MaterialModel.INH_1 }

/-- `ctxBase` with the circumferential-fiber law. -/
def ctxFiber : Ctx :=
  { ctxBase with material_model := MaterialModel.CircumferentialFiberModel }

/-- `ctxBase` with all boundary conditions declared essential (the
configuration that activates the pressure-gauge constraint). -/
def ctxDBC : Ctx := { ctxBase with all_DBC := true }

/-- `ctxBase` with the explicit pressure fix enabled, which puts the
constraining pressure dof into the boundary-value map with value zero. -/
def ctxFix : Ctx := { ctxBase with fix_pressure := true }

/-- An all-zero incoming evaluation state for `ctxINH1`, used to evaluate
the assembled residual on a concrete input. -/
def stINH1 : EvalState ctxINH1 where
  mapping := none
  res_f := fun _ => 0
  res_s := fun _ => 0
  jac00 := fun _ _ => 0
  jac01 := fun _ _ => 0
  jac10 := fun _ _ => 0
  jac11 := fun _ _ => 0
  A_gamma := fun _ => 0

/-- An all-zero incoming evaluation state for `ctxBase`. -/
def stBase : EvalState ctxBase where
  mapping := none
  res_f := fun _ => 0
  res_s := fun _ => 0
  jac00 := fun _ _ => 0
  jac01 := fun _ _ => 0
  jac10 := fun _ _ => 0
  jac11 := fun _ _ => 0
  A_gamma := fun _ => 0

/-- Claim C8: at the start of every residual/Jacobian evaluation the
previously held deformed-configuration mapping is discarded and a fresh
one is built — from the previous time step's solid displacement field when
the semi-implicit flag is set, and from the current iterate's solid
displacement field otherwise.  The statement quantifies over the incoming
evaluation state `st`, so the stored mapping (even a deleted one, `none`)
never influences the freshly built mapping. -/
theorem mapping_rebuilt_each_evaluation (ctx : Ctx) (st : EvalState ctx)
    (update_jacobian : Bool) (prevS : Fin ctx.nW → ℚ)
    (xtf : Fin ctx.nUp → ℚ) (xts : Fin ctx.nW → ℚ)
    (xf : Fin ctx.nUp → ℚ) (xs : Fin ctx.nW → ℚ) (alpha t : ℚ) :
    (residual_and_or_Jacobian ctx st update_jacobian prevS xtf xts xf xs alpha t).mapping
      = some (if ctx.semi_implicit = true then prevS else xs) := rfl

/-- Claim C9: evaluating the residual (and, when requested, the Jacobian)
twice in succession with identical inputs yields identical outputs: the
evaluation is idempotent on the mutable state, because the residual, the
Jacobian with its sparsity, and the elastic operator `A_gamma` are reset at
the start of each call, and the Jacobian is simply left untouched when no
Jacobian is requested. -/
theorem evaluation_idempotent (ctx : Ctx) (st : EvalState ctx)
    (update_jacobian : Bool) (prevS : Fin ctx.nW → ℚ)
    (xtf : Fin ctx.nUp → ℚ) (xts : Fin ctx.nW → ℚ)
    (xf : Fin ctx.nUp → ℚ) (xs : Fin ctx.nW → ℚ) (alpha t : ℚ) :
    residual_and_or_Jacobian ctx
        (residual_and_or_Jacobian ctx st update_jacobian prevS xtf xts xf xs alpha t)
        update_jacobian prevS xtf xts xf xs alpha t
      = residual_and_or_Jacobian ctx st update_jacobian prevS xtf xts xf xs alpha t := by
  cases update_jacobian <;> rfl

/-- Claim C10: `apply_current_bc(vec, t)` overwrites exactly the fluid-block
entries listed in the current boundary-value map (which contains the
constraining pressure dof with value zero when `fix_pressure` is set);
every other fluid-block entry and the whole solid block are unchanged. -/
theorem apply_current_bc_frame (ctx : Ctx) (t : ℚ) (vf : Fin ctx.nUp → ℚ)
    (vs : Fin ctx.nW → ℚ) :
    (∀ d, compute_current_bc ctx t d = none →
      (apply_current_bc ctx t vf vs).1 d = vf d)
    ∧ (∀ d g, compute_current_bc ctx t d = some g →
      (apply_current_bc ctx t vf vs).1 d = g)
    ∧ (apply_current_bc ctx t vf vs).2 = vs
    ∧ (ctx.fix_pressure = true →
      compute_current_bc ctx t ctx.constraining_dof = some 0) := by
  refine ⟨?_, ?_, rfl, ?_⟩
  · intro d hd
    simp [apply_current_bc, hd]
  · intro d g hd
    simp [apply_current_bc, hd]
  · intro hfix
    simp [compute_current_bc, hfix]

theorem apply_current_bc_frame_witness :
    (apply_current_bc ctxBase 0 (fun _ => 5) (fun _ => 7)).1 ⟨0, by decide⟩ = 5 :=
  (apply_current_bc_frame ctxBase 0 (fun _ => 5) (fun _ => 7)).1 ⟨0, by decide⟩ (by decide)

/-- Claim C6: whenever 15 consecutive inner Newton iterations fail the
convergence test, the driver forces a Jacobian refresh, resets the inner
counter to zero and increments the outer stall counter; as soon as the
outer counter exceeds 3, the run aborts with "No convergence in nonlinear
solver." and is not retried. -/
theorem newton_stall_and_abort (n : ℕ) (cont : Bool) (res_norm : ℚ)
    (newton_update : Fin n → ℚ) (s : NewtonState n)
    (hnc : ¬ res_norm < 1 / 10 ^ 10) (h15 : s.nonlin_iter = 14) :
    (s.outer_nonlin_iter + 1 ≤ 3 →
      newton_iterate n cont res_norm newton_update s =
        NewtonOutcome.next
          { xi := fun i => s.xi i + newton_update i, nonlin_iter := 0,
            outer_nonlin_iter := s.outer_nonlin_iter + 1, update_Jacobian := true })
    ∧ (3 < s.outer_nonlin_iter + 1 →
      newton_iterate n cont res_norm newton_update s =
        NewtonOutcome.aborted "No convergence in nonlinear solver.") := by
  constructor
  · intro h3
    unfold newton_iterate
    rw [if_neg hnc]
    simp [h15, h3]
  · intro h3
    unfold newton_iterate
    rw [if_neg hnc]
    simp [h15]
    omega

theorem newton_stall_and_abort_witness :
    newton_iterate 1 false 1 (fun _ => 0)
        { xi := fun _ => 0, nonlin_iter := 14, outer_nonlin_iter := 3,
          update_Jacobian := false }
      = NewtonOutcome.aborted "No convergence in nonlinear solver." :=
  (newton_stall_and_abort 1 false 1 (fun _ => 0) _ (by norm_num) rfl).2 (by norm_num)

/-- Claim C7: within each time step's Newton loop the step is accepted
exactly when the residual norm is below `1e-10`; otherwise the update
`delta` solving `Jacobian delta = -residual` (the contract of the external
direct solver) is added to `xi`, and a residual norm above `1e-2` forces a
Jacobian recomputation at the next iteration regardless of the configured
reuse policy (`cont`) and of the current policy state. -/
theorem newton_convergence_and_update (n : ℕ) (cont : Bool) (res_norm : ℚ)
    (newton_update res : Fin n → ℚ) (J : Fin n → Fin n → ℚ)
    (s : NewtonState n)
    (hsolve : ∀ i, matVec n J newton_update i = - res i) :
    ((∃ sc, newton_iterate n cont res_norm newton_update s =
        NewtonOutcome.converged sc) ↔ res_norm < 1 / 10 ^ 10)
    ∧ (∀ s1, newton_iterate n cont res_norm newton_update s =
        NewtonOutcome.next s1 →
      (∀ i, s1.xi i = s.xi i + newton_update i)
      ∧ (∀ i, matVec n J (fun k => s1.xi k - s.xi k) i = - res i)
      ∧ (1 / 100 < res_norm → s1.update_Jacobian = true)) := by
  constructor
  · constructor
    · rintro ⟨sc, hsc⟩
      by_contra hge
      unfold newton_iterate at hsc
      rw [if_neg hge] at hsc
      rcases ite_eq_iff.mp hsc with ⟨-, h⟩ | ⟨-, h⟩ <;> exact absurd h (by simp)
    · intro hlt
      refine ⟨{ xi := s.xi, nonlin_iter := s.nonlin_iter,
                outer_nonlin_iter := s.outer_nonlin_iter,
                update_Jacobian :=
                  if s.update_Jacobian = true then cont else s.update_Jacobian }, ?_⟩
      unfold newton_iterate
      dsimp only
      rw [if_pos hlt]
  · intro s1 hs1
    unfold newton_iterate at hs1
    dsimp only at hs1
    by_cases hlt : res_norm < 1 / 10 ^ 10
    · rw [if_pos hlt] at hs1
      exact absurd hs1 (by simp)
    · rw [if_neg hlt] at hs1
      by_cases h15 : s.nonlin_iter + 1 = 15
      · rw [if_pos h15] at hs1
        dsimp only at hs1
        by_cases h3 : s.outer_nonlin_iter + 1 ≤ 3
        · rw [if_pos h3] at hs1
          injection hs1 with hA
          refine ⟨?_, ?_, ?_⟩
          · intro i
            rw [← hA]
          · intro i
            have hfun : (fun k => s1.xi k - s.xi k) = newton_update := by
              funext k
              rw [← hA]
              dsimp only
              ring
            rw [hfun]
            exact hsolve i
          · intro _
            rw [← hA]
        · rw [if_neg h3] at hs1
          exact absurd hs1 (by simp)
      · rw [if_neg h15] at hs1
        dsimp only at hs1
        by_cases h3 : s.outer_nonlin_iter ≤ 3
        · rw [if_pos h3] at hs1
          injection hs1 with hA
          refine ⟨?_, ?_, ?_⟩
          · intro i
            rw [← hA]
          · intro i
            have hfun : (fun k => s1.xi k - s.xi k) = newton_update := by
              funext k
              rw [← hA]
              dsimp only
              ring
            rw [hfun]
            exact hsolve i
          · intro hbig
            rw [← hA]
            dsimp only
            rw [if_pos hbig]
        · rw [if_neg h3] at hs1
          exact absurd hs1 (by simp)

theorem newton_convergence_and_update_witness :
    ∃ sc, newton_iterate 1 false 0 (fun _ => 0)
        { xi := fun _ => 0, nonlin_iter := 0, outer_nonlin_iter := 0,
          update_Jacobian := false }
      = NewtonOutcome.converged sc :=
  (newton_convergence_and_update 1 false 0 (fun _ => 0) (fun _ => 0)
      (fun _ _ => 0)
      { xi := fun _ => 0, nonlin_iter := 0, outer_nonlin_iter := 0,
        update_Jacobian := false }
      (by intro i; simp [matVec])).1.2 (by norm_num)

lemma invert2_eq_inv (F : Mat2) : invert2 F = F⁻¹ := by
  have hdet : F.det = det2 F := by
    simp [det2, Matrix.det_fin_two]
  ext i j
  rw [Matrix.inv_def, Matrix.adjugate_fin_two, hdet]
  fin_cases i <;> fin_cases j <;>
    simp [invert2, Ring.inverse_eq_inv, div_eq_inv_mul, mul_comm]

/-- Claim C3: for every solid quadrature point with deformation gradient
`F = I + grad w`, the constitutive module returns `mu (F - F^{-T})` under
`INH_0`, `mu F` under `INH_1`, and `mu F (etheta x etheta)` under the
circumferential-fiber law, where `etheta` is the unit tangent at the
quadrature point relative to the fixed ring center: under the external
norm contract (`pnorm^2 = |p|^2`, `pnorm` nonzero), `etheta` has unit
length and is orthogonal to the radial vector `p`. -/
theorem constitutive_laws (ctx : Ctx) (cs : Fin ctx.nCellsS)
    (xs : Fin ctx.nW → ℚ) (qs : Fin ctx.nQs) :
    (ctx.material_model = MaterialModel.INH_0 →
      (defGrad ctx cs xs qs).det ≠ 0 →
      Pe_val ctx cs xs qs =
        ctx.mu • (defGrad ctx cs xs qs - ((defGrad ctx cs xs qs)⁻¹)ᵀ))
    ∧ (ctx.material_model = MaterialModel.INH_1 →
      Pe_val ctx cs xs qs = ctx.mu • defGrad ctx cs xs qs)
    ∧ (ctx.material_model = MaterialModel.CircumferentialFiberModel →
      ctx.pnormS cs qs ^ 2 =
          (ctx.qpointS cs qs 0 - ctx.ring_center 0) ^ 2
          + (ctx.qpointS cs qs 1 - ctx.ring_center 1) ^ 2 →
      ctx.pnormS cs qs ≠ 0 →
      (Pe_val ctx cs xs qs =
          ctx.mu • (defGrad ctx cs xs qs
            * Matrix.of fun i j => etheta_val ctx cs qs i * etheta_val ctx cs qs j))
        ∧ (∑ d, etheta_val ctx cs qs d * etheta_val ctx cs qs d) = 1
        ∧ (∑ d, etheta_val ctx cs qs d * (ctx.qpointS cs qs d - ctx.ring_center d))
            = 0) := by
  refine ⟨?_, ?_, ?_⟩
  · intro hm _
    simp only [Pe_val, hm]
    rw [invert2_eq_inv]
  · intro hm
    simp only [Pe_val, hm]
  · intro hm hpn hne
    refine ⟨by simp only [Pe_val, hm], ?_, ?_⟩
    · simp only [etheta_val, Fin.sum_univ_two, Matrix.cons_val_zero, Matrix.cons_val_one,
        Matrix.head_cons]
      field_simp
      nlinarith [hpn]
    · simp only [etheta_val, Fin.sum_univ_two, Matrix.cons_val_zero, Matrix.cons_val_one,
        Matrix.head_cons]
      field_simp
      ring

theorem constitutive_laws_witness :
    (∑ d, etheta_val ctxFiber ⟨0, by decide⟩ ⟨0, by decide⟩ d
        * etheta_val ctxFiber ⟨0, by decide⟩ ⟨0, by decide⟩ d) = 1 :=
  ((constitutive_laws ctxFiber ⟨0, by decide⟩ (fun _ => 0) ⟨0, by decide⟩).2.2
    rfl
    (by show (5 : ℚ) ^ 2 = ((3 : ℚ) - 0) ^ 2 + ((4 : ℚ) - 0) ^ 2; norm_num)
    (by show (5 : ℚ) ≠ 0; norm_num)).2.1

/-- Claim C4: for every local dof whose global index is in the
prescribed-boundary-value map (and which is not doubling as the
pressure-pinning dof under the all-essential, no-explicit-fix
configuration, where the separate pinning rule of §4.4 takes over), the
constraint pass overwrites its local residual entry with
`scaling * (current - prescribed)` and, when a Jacobian is being built,
zeroes its whole local row and puts `scaling` on the diagonal.  `scaling`
is the minimal fluid-cell diameter re-read at the start of each
evaluation (`Ctx.scaling`). -/
theorem apply_constraints_on_prescribed_rows (ctx : Ctx) (t : ℚ)
    (xiF : Fin ctx.nUp → ℚ) {m N : ℕ} (dofs : Fin m → Fin ctx.nUp)
    (res : Fin N → ℚ) (jac : Fin N → Fin N → ℚ) (i : Fin N)
    (hm : (i : ℕ) < m) (g : ℚ)
    (hbv : compute_current_bc ctx t (dofs ⟨(i : ℕ), hm⟩) = some g)
    (hnotpin : ¬(ctx.all_DBC = true ∧ ctx.fix_pressure = false
        ∧ dofs ⟨(i : ℕ), hm⟩ = ctx.constraining_dof)) :
    apply_constraints_res ctx t xiF dofs res i
        = ctx.scaling * (xiF (dofs ⟨(i : ℕ), hm⟩) - g)
    ∧ ∀ j, apply_constraints_jac ctx t dofs jac i j
        = if j = i then ctx.scaling else 0 := by
  constructor
  · simp only [apply_constraints_res, dif_pos hm, hbv, if_neg hnotpin]
  · intro j
    simp only [apply_constraints_jac, dif_pos hm, hbv, Option.isSome_some, if_true,
      if_neg hnotpin]

theorem apply_constraints_on_prescribed_rows_witness :
    apply_constraints_res ctxFix 0 (fun _ => 3) (fun _ : Fin 1 => ⟨0, by decide⟩)
        (fun _ : Fin 1 => 9) ⟨0, by decide⟩
      = ctxFix.scaling * ((3 : ℚ) - 0) :=
  (apply_constraints_on_prescribed_rows ctxFix 0 (fun _ => 3)
    (fun _ : Fin 1 => ⟨0, by decide⟩) (fun _ : Fin 1 => 9)
    (fun _ _ : Fin 1 => 0) ⟨0, by decide⟩ (by decide) 0 (by decide)
    (by decide)).1

/-- Claim C5: under the all-essential, no-explicit-fix configuration the
constraint pass zeroes the residual entry of the pressure-pinning dof and
subtracts the unit multiple of its own row from the local Jacobian row
(leaving it zero); `distribute_constraint_on_pressure` then adds
`average_pressure * scaling / area` to that residual entry per fluid cell
(leaving every other entry alone) and adds
`pressure_coefficient * scaling / area` on the pinning row at each local
dof's column, the coefficient being zero for every non-pressure-type local
dof; `area` is the control-volume measure computed once at startup. -/
theorem pressure_pinning_row (ctx : Ctx) (t : ℚ) (xiF : Fin ctx.nUp → ℚ)
    {m N : ℕ} (dofs : Fin m → Fin ctx.nUp) (res : Fin N → ℚ)
    (jac : Fin N → Fin N → ℚ) (i : Fin N) (hm : (i : ℕ) < m)
    (hall : ctx.all_DBC = true) (hfix : ctx.fix_pressure = false)
    (hd : dofs ⟨(i : ℕ), hm⟩ = ctx.constraining_dof) :
    apply_constraints_res ctx t xiF dofs res i = 0
    ∧ (∀ j, apply_constraints_jac ctx t dofs jac i j = 0)
    ∧ (∀ (residual : Fin ctx.nUp → ℚ) (avgP : ℚ),
        distribute_constraint_on_pressure_res ctx residual avgP ctx.constraining_dof
          = residual ctx.constraining_dof + avgP * ctx.scaling / ctx.area
        ∧ ∀ e, e ≠ ctx.constraining_dof →
            distribute_constraint_on_pressure_res ctx residual avgP e = residual e)
    ∧ (∀ (jacobian : Fin ctx.nUp → Fin ctx.nUp → ℚ) (m2 : ℕ)
        (pc : Fin m2 → ℚ) (dofs2 : Fin m2 → Fin ctx.nUp) (e : Fin ctx.nUp),
        distribute_constraint_on_pressure_jac ctx jacobian pc dofs2
            ctx.constraining_dof e
          = jacobian ctx.constraining_dof e
            + ∑ k, (if dofs2 k = e then pc k * ctx.scaling / ctx.area else 0))
    ∧ (∀ (c : Fin ctx.nCellsF) (i2 : Fin ctx.dpcF), ¬ctx.compF i2 = 2 →
        local_pressure_coefficient ctx c i2 = 0) := by
  refine ⟨?_, ?_, ?_, ?_, ?_⟩
  · simp [apply_constraints_res, dif_pos hm, hall, hfix, hd]
  · intro j
    simp [apply_constraints_jac, dif_pos hm, hall, hfix, hd]
  · intro residual avgP
    refine ⟨by simp [distribute_constraint_on_pressure_res], ?_⟩
    intro e he
    simp [distribute_constraint_on_pressure_res, he]
  · intro jacobian m2 pc dofs2 e
    simp [distribute_constraint_on_pressure_jac]
  · intro c i2 h2
    simp [local_pressure_coefficient, h2]

theorem pressure_pinning_row_witness :
    apply_constraints_res ctxDBC 0 (fun _ => 3) (fun _ : Fin 1 => ⟨0, by decide⟩)
        (fun _ : Fin 1 => 9) ⟨0, by decide⟩ = 0 :=
  (pressure_pinning_row ctxDBC 0 (fun _ => 3) (fun _ : Fin 1 => ⟨0, by decide⟩)
    (fun _ : Fin 1 => 9) (fun _ _ : Fin 1 => 0) ⟨0, by decide⟩ (by decide)
    rfl rfl (by decide)).1

lemma local_up_value_zero (ctx : Ctx) (c : Fin ctx.nCellsF) (q : Fin ctx.nQf)
    (comp : Fin 3) : local_up_value ctx c (fun _ => 0) q comp = 0 := by
  simp [local_up_value]

lemma local_grad_up_zero (ctx : Ctx) (c : Fin ctx.nCellsF) (q : Fin ctx.nQf)
    (comp : Fin 3) (d : Fin 2) : local_grad_up ctx c (fun _ => 0) q comp d = 0 := by
  simp [local_grad_up]

lemma solid_grad_zero (ctx : Ctx) (cs : Fin ctx.nCellsS) (qs : Fin ctx.nQs)
    (i j : Fin 2) : solid_grad ctx cs (fun _ => 0) qs i j = 0 := by
  simp [solid_grad]

lemma defGrad_zero (ctx : Ctx) (cs : Fin ctx.nCellsS) (qs : Fin ctx.nQs) :
    defGrad ctx cs (fun _ => 0) qs = 1 := by
  ext i j
  simp [defGrad, solid_grad_zero, Matrix.one_apply]

lemma invert2_one : invert2 (1 : Mat2) = 1 := by
  ext i j
  fin_cases i <;> fin_cases j <;>
    simp [invert2, det2, Matrix.one_apply]

lemma Pe_val_zero (ctx : Ctx) (cs : Fin ctx.nCellsS) (qs : Fin ctx.nQs)
    (hmat : ctx.material_model = MaterialModel.INH_0) :
    Pe_val ctx cs (fun _ => 0) qs = 0 := by
  simp only [Pe_val, hmat, defGrad_zero, invert2_one, Matrix.transpose_one, sub_self,
    smul_zero]

lemma PeFT_val_zero (ctx : Ctx) (cs : Fin ctx.nCellsS) (qs : Fin ctx.nQs)
    (hmat : ctx.material_model = MaterialModel.INH_0) :
    PeFT_val ctx cs (fun _ => 0) qs = 0 := by
  simp only [PeFT_val, Pe_val_zero ctx cs qs hmat, Matrix.zero_mul]

lemma local_A_gamma_zero (ctx : Ctx) (cs : Fin ctx.nCellsS) (k : Fin ctx.dpcS)
    (hmat : ctx.material_model = MaterialModel.INH_0) :
    local_A_gamma ctx cs (fun _ => 0) k = 0 := by
  simp [local_A_gamma, Pe_val_zero ctx cs _ hmat]

lemma A_gamma_global_zero (ctx : Ctx) (d : Fin ctx.nW)
    (hmat : ctx.material_model = MaterialModel.INH_0) :
    A_gamma_global ctx (fun _ => 0) d = 0 := by
  unfold A_gamma_global
  apply Finset.sum_eq_zero
  intro cs _
  apply Finset.sum_eq_zero
  intro k _
  simp [local_A_gamma_zero ctx cs k hmat]

lemma M_inv_A_gamma_zero (ctx : Ctx) (d : Fin ctx.nW)
    (hmat : ctx.material_model = MaterialModel.INH_0) :
    M_inv_A_gamma ctx (fun _ => 0) d = 0 := by
  unfold M_inv_A_gamma
  apply Finset.sum_eq_zero
  intro e _
  simp [A_gamma_global_zero ctx e hmat]

lemma up_at_interaction_zero (ctx : Ctx)
    (I : Interaction ctx.nCellsF ctx.dpcF ctx.nQs) (q : Fin I.nq) (comp : Fin 3) :
    up_at_interaction ctx I (fun _ => 0) q comp = 0 := by
  simp [up_at_interaction]

lemma solid_value_zero (ctx : Ctx) (cs : Fin ctx.nCellsS) (qs : Fin ctx.nQs)
    (comp : Fin 2) : solid_value ctx cs (fun _ => 0) qs comp = 0 := by
  simp [solid_value]

lemma local_residual_f_zero (ctx : Ctx) (c : Fin ctx.nCellsF) (t : ℚ)
    (hforce : ∀ q k, ctx.forceF t c q k = 0) (i : Fin ctx.dpcF) :
    local_residual_f ctx c t (fun _ => 0) (fun _ => 0) i = 0 := by
  unfold local_residual_f
  split
  · apply Finset.sum_eq_zero
    intro q _
    simp [local_up_value_zero, local_grad_up_zero, hforce]
  · apply Finset.sum_eq_zero
    intro q _
    simp [local_grad_up_zero]

lemma local_residual_V_zero (ctx : Ctx) (cs : Fin ctx.nCellsS)
    (I : Interaction ctx.nCellsF ctx.dpcF ctx.nQs)
    (hmat : ctx.material_model = MaterialModel.INH_0) (i : Fin ctx.dpcF) :
    local_residual_V ctx cs I (fun _ => 0) i = 0 := by
  unfold local_residual_V
  split
  · apply Finset.sum_eq_zero
    intro q _
    split
    · apply Finset.sum_eq_zero
      intro j _
      split
      · simp [M_inv_A_gamma_zero ctx _ hmat]
      · rfl
    · simp [PeFT_val_zero ctx cs _ hmat]
  · rfl

lemma local_residual_Y_zero (ctx : Ctx) (cs : Fin ctx.nCellsS)
    (I : Interaction ctx.nCellsF ctx.dpcF ctx.nQs) (i : Fin ctx.dpcS) :
    local_residual_Y ctx cs I (fun _ => 0) i = 0 := by
  unfold local_residual_Y
  rw [neg_eq_zero]
  apply Finset.sum_eq_zero
  intro q _
  simp [up_at_interaction_zero]

lemma local_inertial_res_zero (ctx : Ctx) (cs : Fin ctx.nCellsS)
    (i : Fin ctx.dpcS) : local_inertial_res ctx cs (fun _ => 0) i = 0 := by
  unfold local_inertial_res
  apply Finset.sum_eq_zero
  intro qs _
  simp [solid_value_zero]

lemma local_average_pressure_zero (ctx : Ctx) (c : Fin ctx.nCellsF) :
    local_average_pressure ctx c (fun _ => 0) = 0 := by
  unfold local_average_pressure
  split
  · apply Finset.sum_eq_zero
    intro i _
    apply Finset.sum_eq_zero
    intro q _
    split <;> simp
  · rfl

lemma apply_constraints_res_of_none (ctx : Ctx) (t : ℚ) (xiF : Fin ctx.nUp → ℚ)
    {m N : ℕ} (dofs : Fin m → Fin ctx.nUp) (res : Fin N → ℚ) (i : Fin N)
    (h : ∀ hm : (i : ℕ) < m, compute_current_bc ctx t (dofs ⟨(i : ℕ), hm⟩) = none)
    (hres : res i = 0) :
    apply_constraints_res ctx t xiF dofs res i = 0 := by
  unfold apply_constraints_res
  split
  case isTrue hm =>
    simp only [h hm, hres]
    split <;> rfl
  case isFalse hm => exact hres

lemma global_residual_f_zero (ctx : Ctx) (t : ℚ) (w : Fin ctx.nW → ℚ)
    (hmat : ctx.material_model = MaterialModel.INH_0)
    (hforce : ∀ c q k, ctx.forceF t c q k = 0) (d : Fin ctx.nUp)
    (hd : compute_current_bc ctx t d = none) :
    global_residual_f ctx t w (fun _ => 0) (fun _ => 0) (fun _ => 0) d = 0 := by
  unfold global_residual_f
  have h1 : (∑ c, ∑ i, if ctx.dofMapF c i = d then
      apply_constraints_res ctx t (fun _ => 0) (ctx.dofMapF c)
        (local_residual_f ctx c t (fun k => (0 : ℚ)) (fun k => (0 : ℚ))) i
    else 0) = 0 := by
    apply Finset.sum_eq_zero
    intro c _
    apply Finset.sum_eq_zero
    intro i _
    split
    case isTrue hdof =>
      apply apply_constraints_res_of_none
      · intro hm
        rw [show (⟨(i : ℕ), hm⟩ : Fin ctx.dpcF) = i from rfl, hdof]
        exact hd
      · exact local_residual_f_zero ctx c t (hforce c) i
    case isFalse hdof => rfl
  have h3 : (∑ cs, ((ctx.locate w cs).map (fun I =>
      ∑ i, if ctx.dofMapF I.fCell i = d then
        apply_constraints_res ctx t (fun _ => 0) (ctx.dofMapF I.fCell)
          (local_residual_V ctx cs I (fun _ => 0)) i
      else 0)).sum) = 0 := by
    apply Finset.sum_eq_zero
    intro cs _
    apply List.sum_eq_zero
    intro x hx
    rcases List.mem_map.mp hx with ⟨I, _, rfl⟩
    apply Finset.sum_eq_zero
    intro i _
    split
    case isTrue hdof =>
      apply apply_constraints_res_of_none
      · intro hm
        rw [show (⟨(i : ℕ), hm⟩ : Fin ctx.dpcF) = i from rfl, hdof]
        exact hd
      · exact local_residual_V_zero ctx cs I hmat i
    case isFalse hdof => rfl
  rw [h1, h3]
  simp [local_average_pressure_zero]

lemma global_residual_s_zero (ctx : Ctx) (w : Fin ctx.nW → ℚ) (e : Fin ctx.nW) :
    global_residual_s ctx w (fun _ => 0) (fun _ => 0) e = 0 := by
  unfold global_residual_s
  have h1 : (∑ cs, ((ctx.locate w cs).map (fun I =>
      ∑ i, if ctx.dofMapS cs i = e then
        local_residual_Y ctx cs I (fun _ => 0) i else 0)).sum) = 0 := by
    apply Finset.sum_eq_zero
    intro cs _
    apply List.sum_eq_zero
    intro x hx
    rcases List.mem_map.mp hx with ⟨I, _, rfl⟩
    apply Finset.sum_eq_zero
    intro i _
    split
    · exact local_residual_Y_zero ctx cs I i
    · rfl
  have h2 : (∑ cs, ∑ i, if ctx.dofMapS cs i = e then
      local_inertial_res ctx cs (fun _ => 0) i else 0) = 0 := by
    apply Finset.sum_eq_zero
    intro cs _
    apply Finset.sum_eq_zero
    intro i _
    split
    · exact local_inertial_res_zero ctx cs i
    · rfl
  rw [h1, h2, add_zero]

/-- Claim C1 (amended): under the `INH_0` material law — the one law whose
elastic stress vanishes in the reference configuration — evaluating the
residual with zero state, zero time derivative and zero body force yields
zero at every row that is not a boundary-constraint row (prescribed
boundary values, or the pressure-pinning row when active), and the whole
solid block is zero; this holds for every flag setting, every incoming
evaluation state and every deformed-configuration placement.  As stated in
the specification (for every material law) the claim is false: see the
counterexample, where `INH_1` has stress `mu F = mu I` at zero
displacement, which loads interior velocity rows. -/
theorem residual_zero_state_INH0 (ctx : Ctx) (st : EvalState ctx) (u : Bool)
    (prevS : Fin ctx.nW → ℚ) (alpha t : ℚ)
    (hmat : ctx.material_model = MaterialModel.INH_0)
    (hforce : ∀ c q k, ctx.forceF t c q k = 0) :
    (∀ d : Fin ctx.nUp, ¬is_constraint_row ctx t d →
      (residual_and_or_Jacobian ctx st u prevS (fun _ => 0) (fun _ => 0)
        (fun _ => 0) (fun _ => 0) alpha t).res_f d = 0)
    ∧ (∀ e : Fin ctx.nW,
      (residual_and_or_Jacobian ctx st u prevS (fun _ => 0) (fun _ => 0)
        (fun _ => 0) (fun _ => 0) alpha t).res_s e = 0) := by
  constructor
  · intro d hd
    have hbc : compute_current_bc ctx t d = none := by
      cases hopt : compute_current_bc ctx t d with
      | none => rfl
      | some g =>
        exact absurd (Or.inl (by simp [hopt])) hd
    exact global_residual_f_zero ctx t _ hmat hforce d hbc
  · intro e
    exact global_residual_s_zero ctx _ e

theorem residual_zero_state_INH0_witness :
    (residual_and_or_Jacobian ctxBase stBase false (fun _ => 0) (fun _ => 0)
      (fun _ => 0) (fun _ => 0) (fun _ => 0) 1 0).res_f ⟨0, by decide⟩ = 0 :=
  (residual_zero_state_INH0 ctxBase stBase false (fun _ => 0) 1 0 rfl
    (fun _ _ _ => rfl)).1 ⟨0, by decide⟩
    (by
      intro h
      unfold is_constraint_row at h
      rcases h with h | ⟨hall, -⟩
      · rw [show compute_current_bc ctxBase 0 ⟨0, by decide⟩ = none from rfl] at h
        simp at h
      · exact absurd hall (by decide))

/-- Claim C1, counterexample to the statement as written (which quantifies
over every material law): in the concrete configuration `ctxINH1` — the
`INH_1` law, zero body force, an empty boundary-value map and all flags
off — the assembled residual at zero state and zero time derivative equals
`1` at fluid dof 0, which is not a boundary-constraint row.  The elastic
stress of `INH_1` is `mu F = mu I` at zero displacement, so the coupling
term `Pe F^T : grad v` loads interior velocity rows. -/
theorem residual_zero_state_counterexample :
    ¬is_constraint_row ctxINH1 0 ⟨0, by decide⟩
    ∧ (∀ c q k, ctxINH1.forceF 0 c q k = 0)
    ∧ (residual_and_or_Jacobian ctxINH1 stINH1 false (fun _ => 0) (fun _ => 0)
        (fun _ => 0) (fun _ => 0) (fun _ => 0) 1 0).res_f ⟨0, by decide⟩ = 1 := by
  refine ⟨?_, fun _ _ _ => rfl, ?_⟩
  · intro h
    unfold is_constraint_row at h
    rcases h with h | ⟨hall, -⟩
    · rw [show compute_current_bc ctxINH1 0 ⟨0, by decide⟩ = none from rfl] at h
      simp at h
    · exact absurd hall (by decide)
  delta residual_and_or_Jacobian stINH1 ctxINH1 ctxBase interBase
  dsimp only
  simp [global_residual_f, apply_constraints_res, compute_current_bc,
    local_residual_f, local_up_value, local_grad_up, local_residual_V,
    PeFT_val, Pe_val, defGrad, solid_grad, M_inv_A_gamma, A_gamma_global,
    local_A_gamma, local_average_pressure, Matrix.mul_apply, Fin.sum_univ_two,
    Matrix.of_apply, Matrix.transpose_apply, smul_eq_mul, Matrix.smul_apply]

lemma sum_shift_aux {n : ℕ} (P : Fin n → Prop) [DecidablePred P]
    (x g : Fin n → ℚ) (j : Fin n) (s : ℚ) :
    (∑ k, if P k then (x k + s * (if k = j then 1 else 0)) * g k else 0)
      = (∑ k, if P k then x k * g k else 0) + s * (if P j then g j else 0) := by
  have h : ∀ k, (if P k then (x k + s * (if k = j then 1 else 0)) * g k else 0)
      = (if P k then x k * g k else 0)
        + (if k = j then (if P k then s * g k else 0) else 0) := by
    intro k
    by_cases hk : k = j
    · subst hk
      by_cases hp : P k
      · simp only [hp, if_true, if_pos rfl]
        ring
      · simp [hp]
    · by_cases hp : P k <;> simp [hp, hk]
  rw [Finset.sum_congr rfl (fun k _ => h k), Finset.sum_add_distrib,
    Finset.sum_ite_eq' Finset.univ j (fun k => if P k then s * g k else 0)]
  simp only [Finset.mem_univ, if_true]
  congr 1
  split <;> ring

lemma local_up_value_shift (ctx : Ctx) (c : Fin ctx.nCellsF)
    (x : Fin ctx.dpcF → ℚ) (j : Fin ctx.dpcF) (s : ℚ) (q : Fin ctx.nQf)
    (comp : Fin 3) :
    local_up_value ctx c (fun k => x k + s * (if k = j then 1 else 0)) q comp
      = local_up_value ctx c x q comp
        + s * (if ctx.compF j = comp then ctx.shapeValueF c j q else 0) :=
  sum_shift_aux (fun k => ctx.compF k = comp) x (fun k => ctx.shapeValueF c k q) j s

lemma local_grad_up_shift (ctx : Ctx) (c : Fin ctx.nCellsF)
    (x : Fin ctx.dpcF → ℚ) (j : Fin ctx.dpcF) (s : ℚ) (q : Fin ctx.nQf)
    (comp : Fin 3) (d : Fin 2) :
    local_grad_up ctx c (fun k => x k + s * (if k = j then 1 else 0)) q comp d
      = local_grad_up ctx c x q comp d
        + s * (if ctx.compF j = comp then ctx.shapeGradF c j q d else 0) :=
  sum_shift_aux (fun k => ctx.compF k = comp) x (fun k => ctx.shapeGradF c k q d) j s

lemma fin3_cases (a : Fin 3) : a = 0 ∨ a = 1 ∨ a = 2 := by
  fin_cases a <;> simp

/-- Claim C2: the fluid-fluid local Jacobian assembled for a fluid cell is
the exact directional derivative of that cell's local residual (inertia,
pressure, viscous, convective and incompressibility terms) with respect to
each local velocity/pressure dof `j`: perturbing the local state by
`s` in direction `j` — which perturbs the local time derivative by
`s * alpha`, since `xi' = (xi - xi_prev)/dt` — changes the residual by
`s * jacobian(i,j)` plus a term quadratic in `s` (the convective term is
quadratic, so its second difference is exact); the coefficient `alpha`
supplied by the Newton driver when it requests a Jacobian is `1/dt`
(`run_alpha`). -/
theorem fluid_jacobian_exact_derivative (ctx : Ctx) (c : Fin ctx.nCellsF)
    (t : ℚ) (xt x : Fin ctx.dpcF → ℚ) (i j : Fin ctx.dpcF) (alpha : ℚ) :
    run_alpha ctx = 1 / ctx.dt
    ∧ ∃ C : ℚ, ∀ s : ℚ,
      local_residual_f ctx c t
          (fun k => xt k + s * alpha * (if k = j then 1 else 0))
          (fun k => x k + s * (if k = j then 1 else 0)) i
        = local_residual_f ctx c t xt x i
          + s * local_jacobian_f ctx c alpha x i j
          + s ^ 2 * C := by
  refine ⟨rfl, ?_⟩
  by_cases h : (ctx.compF i : ℕ) < 2
  · refine ⟨∑ q, ∑ d, ctx.rho
        * (if ctx.compF j = ctx.compF i then ctx.shapeGradF c j q d else 0)
        * (if ctx.compF j = d.castSucc then ctx.shapeValueF c j q else 0)
        * ctx.shapeValueF c i q * ctx.JxWf c q, ?_⟩
    intro s
    unfold local_residual_f local_jacobian_f
    rw [dif_pos h, dif_pos h, dif_pos h]
    simp only [local_up_value_shift, local_grad_up_shift]
    rw [Finset.mul_sum, Finset.mul_sum, ← Finset.sum_add_distrib,
      ← Finset.sum_add_distrib]
    apply Finset.sum_congr rfl
    intro q _
    by_cases hij : ctx.compF j = ctx.compF i
    · rcases fin3_cases (ctx.compF j) with hcj | hcj | hcj
      · have hci : ctx.compF i = 0 := hij.symm.trans hcj
        simp [hcj, hci, Fin.sum_univ_two]
        ring
      · have hci : ctx.compF i = 1 := hij.symm.trans hcj
        simp [hcj, hci, Fin.sum_univ_two]
        ring
      · have hci : ctx.compF i = 2 := hij.symm.trans hcj
        rw [hci] at h
        exact absurd h (by decide)
    · rcases fin3_cases (ctx.compF j) with hcj | hcj | hcj <;>
        simp only [hcj] at hij ⊢ <;>
        simp [hij, Fin.sum_univ_two] <;>
        ring
  · refine ⟨0, ?_⟩
    intro s
    unfold local_residual_f local_jacobian_f
    rw [dif_neg h, dif_neg h, dif_neg h]
    simp only [local_grad_up_shift, mul_zero, add_zero]
    rw [Finset.mul_sum, ← Finset.sum_add_distrib]
    apply Finset.sum_congr rfl
    intro q _
    rcases fin3_cases (ctx.compF j) with hcj | hcj | hcj <;>
      simp [hcj, Fin.sum_univ_two] <;>
      ring
